import Mathlib

set_option maxRecDepth 10000

/-!
Verification of the SRT captioner core (`src/app.py`) against its design
specification.

The two pure functions of the program, `split_text` and `generate_srt`
(with its helper `to_timestamp`), are embedded below.  Text is modelled as
`List Char`.  Python `float` values entering the core (`duration_sec`) are
modelled as exact rationals; the one place where float *rounding* is
observable for integer inputs — `int(timedelta(milliseconds=ms).total_seconds())`,
which computes the IEEE-754 binary64 value nearest to `ms / 1000` and then
truncates — is modelled bit-precisely by `floatOfRat`, a
round-to-nearest-even model of binary64 rounding for nonnegative rationals.

Python `str.strip` / regex `\s` strip the ASCII whitespace characters
(space, tab, newline, carriage return, vertical tab, form feed); this
ASCII subset is what `pyIsSpace` models.  `str.splitlines` is modelled on
the line boundaries `\n`, `\r`, `\r\n`.

The one exception the core can raise is modelled explicitly: the
`timedelta` constructor inside `to_timestamp` raises `OverflowError` once
its normalized day count exceeds 999999999, so `to_timestampExc`,
`srtLinesExc` and `generate_srtExc` carry that failure path as `Option`
values alongside the total functions used for the in-range behavior.
-/

/-- Python whitespace (ASCII subset), as used by `str.strip` and regex `\s`. -/
def pyIsSpace (c : Char) : Bool :=
  (c == ' ') || (c == '\t') || (c == '\n') || (c == '\r') || (c == '\x0b') || (c == '\x0c')

/-- Model of Python `str.strip()`: drop leading and trailing whitespace. -/
def pyStrip (l : List Char) : List Char :=
  ((l.dropWhile pyIsSpace).reverse.dropWhile pyIsSpace).reverse

/-- Space or tab, the character class of the regex `[ \t]+` on line 25 of `app.py`. -/
def isST (c : Char) : Bool := (c == ' ') || (c == '\t')

/-- Worker for `collapseST`; the flag records whether we are inside a run of
spaces/tabs that has already emitted its single replacement space. -/
def collapseSTAux : Bool → List Char → List Char
  | _, [] => []
  | inRun, c :: rest =>
    if isST c then
      if inRun then collapseSTAux true rest else ' ' :: collapseSTAux true rest
    else c :: collapseSTAux false rest

/-- Model of `re.sub(r"[ \t]+", " ", s)`: collapse each maximal run of
spaces/tabs into a single space. -/
def collapseST (l : List Char) : List Char := collapseSTAux false l

/-- Model of Python `str.splitlines()` for the boundaries `\n`, `\r\n`, `\r`:
no trailing empty line is produced for a terminal line break. -/
def splitlinesAux (acc : List Char) : List Char → List (List Char)
  | [] => if acc.isEmpty then [] else [acc.reverse]
  | '\r' :: '\n' :: rest => acc.reverse :: splitlinesAux [] rest
  | '\n' :: rest => acc.reverse :: splitlinesAux [] rest
  | '\r' :: rest => acc.reverse :: splitlinesAux [] rest
  | c :: rest => splitlinesAux (c :: acc) rest

/-- `str.splitlines()`. -/
def pySplitlines (l : List Char) : List (List Char) := splitlinesAux [] l

/-- A sentence-ending character, the class `[.!?]` of the split regex. -/
def isSentEnd (c : Char) : Bool := (c == '.') || (c == '!') || (c == '?')

/-- Worker for `sentSplit`, modelling `re.split(r"(?<=[.!?])\s+", s)`.
`acc` is the reversed current piece, `prevP` records whether the previous
character was one of `.!?`, and `inSep` records that we are consuming the
whitespace run of a separator (the piece before it has been emitted). -/
def sentAux (acc : List Char) (prevP inSep : Bool) : List Char → List (List Char)
  | [] => [acc.reverse]
  | c :: rest =>
    if inSep then
      if pyIsSpace c then sentAux acc prevP true rest
      else sentAux [c] (isSentEnd c) false rest
    else if pyIsSpace c then
      if prevP then acc.reverse :: sentAux [] false true rest
      else sentAux (c :: acc) false false rest
    else sentAux (c :: acc) (isSentEnd c) false rest

/-- Model of `re.split(r"(?<=[.!?])\s+", s)`: split at each maximal
whitespace run whose preceding character is `.`, `!` or `?`; the run is
consumed as the separator. -/
def sentSplit (l : List Char) : List (List Char) := sentAux [] false false l

/-- Embedding of `split_text` (lines 18-31 of `app.py`).  The mode is the
raw string supplied by the caller; it is compared against the literals
`"newlines"` and `"auto"` exactly as the source does.  The source's local
variable `cleaned = re.sub(r"[ \t]+", " ", text.strip())` is written out as
`collapseST (pyStrip text)` at each of its occurrences. -/
def split_text (text : List Char) (mode : String) : List (List Char) :=
  if mode = "newlines" ∨ (mode = "auto" ∧ '\n' ∈ collapseST (pyStrip text) ∧
      2 ≤ (collapseST (pyStrip text)).count '\n') then
    ((pySplitlines (collapseST (pyStrip text))).map pyStrip).filter (fun p => !p.isEmpty)
  else
    ((sentSplit (collapseST (pyStrip text))).map pyStrip).filter (fun p => !p.isEmpty)

/-- Floor of the base-2 logarithm of a positive natural number, fuel-based so
that it evaluates by kernel reduction. -/
def lg2Aux : ℕ → ℕ → ℕ
  | 0, _ => 0
  | fuel + 1, n => if n < 2 then 0 else lg2Aux fuel (n / 2) + 1

/-- `lg2 n = ⌊log₂ n⌋` for `1 ≤ n`. -/
def lg2 (n : ℕ) : ℕ := lg2Aux n n

/-- Least `k` with `b ≤ a * 2 ^ k` (given enough fuel), used for the binary
exponent of rationals below `1`. -/
def clg2Aux : ℕ → ℕ → ℕ → ℕ
  | 0, _, _ => 0
  | fuel + 1, a, b => if b ≤ a then 0 else clg2Aux fuel (2 * a) b + 1

/-- Binary exponent of a positive rational: the unique `e` with
`2 ^ e ≤ x < 2 ^ (e + 1)`. -/
def qfloorLog2 (x : ℚ) : ℤ :=
  if 1 ≤ x then (lg2 x.floor.toNat : ℤ) else -(clg2Aux x.den x.num.toNat x.den : ℤ)

/-- Round a rational to the nearest integer, ties to even (the IEEE-754
default rounding used by CPython float division). -/
def rne (q : ℚ) : ℤ :=
  if q - (q.floor : ℚ) < 1 / 2 then q.floor
  else if q - (q.floor : ℚ) = 1 / 2 then (if q.floor % 2 = 0 then q.floor else q.floor + 1)
  else q.floor + 1

/-- The IEEE-754 binary64 value nearest to a nonnegative rational `x`
(round to nearest, ties to even): `x` is scaled to the 53-bit significand
range determined by its binary exponent, rounded to an integer, and scaled
back.  This is the value CPython computes for `total_seconds()`, whose body
is a single exactly-represented-integer division `(ms * 1000) / 10**6`. -/
def floatOfRat (x : ℚ) : ℚ :=
  if x ≤ 0 then 0
  else (rne (x * 2 ^ (52 - qfloorLog2 x)) : ℚ) * 2 ^ (qfloorLog2 x - 52)

/-- Python `int()` applied to a float value: truncation toward zero. -/
def pyInt (q : ℚ) : ℤ := if 0 ≤ q then q.floor else -(Rat.floor (-q))

/-- Line 11 of `app.py`: `int(timedelta(milliseconds=ms).total_seconds())`
for a nonnegative integer `ms` (the renderer only ever passes clamped,
nonnegative cursors).  This is the value of the *non-raising* path: for
`ms` at or beyond `timedeltaOverflowMs` (defined below) the `timedelta`
constructor raises `OverflowError`; that failure path is modelled
separately by `to_timestampExc` and `generate_srtExc`. -/
def total_seconds (ms : ℕ) : ℕ := (pyInt (floatOfRat ((ms : ℚ) / 1000))).toNat

/-- The decimal digit character for `n < 10`. -/
def digitChar (n : ℕ) : Char := Char.ofNat (48 + n)

/-- Fuel-based decimal printer worker. -/
def natReprAux : ℕ → ℕ → List Char → List Char
  | 0, _, acc => acc
  | fuel + 1, n, acc =>
    if n < 10 then digitChar n :: acc else natReprAux fuel (n / 10) (digitChar (n % 10) :: acc)

/-- Python `str(n)` for a nonnegative integer: decimal digits, no sign. -/
def natRepr (n : ℕ) : List Char := natReprAux (n + 1) n []

/-- Python `f"{n:02}"` for nonnegative `n`: zero-pad to width 2. -/
def pad2 (n : ℕ) : List Char := if n < 10 then '0' :: natRepr n else natRepr n

/-- Python `f"{n:03}"` for nonnegative `n`: zero-pad to width 3. -/
def pad3 (n : ℕ) : List Char :=
  if n < 10 then '0' :: '0' :: natRepr n
  else if n < 100 then '0' :: natRepr n
  else natRepr n

/-- Embedding of `to_timestamp` (lines 8-16 of `app.py`):
`hours:minutes:seconds,millis` with the hour/minute/second fields derived
from the float-truncated total seconds and the millisecond field from
`ms % 1000`. -/
def to_timestamp (ms : ℕ) : List Char :=
  let ts := total_seconds ms
  pad2 (ts / 3600) ++ ':' :: pad2 (ts % 3600 / 60) ++ ':' :: pad2 (ts % 60) ++ ',' :: pad3 (ms % 1000)

/-- The timestamp line `"<start> --> <end>"` of an SRT block (line 44). -/
def tsLine (s e : ℕ) : List Char :=
  to_timestamp s ++ ' ' :: '-' :: '-' :: '>' :: ' ' :: to_timestamp e

/-- Line 37 of `app.py`: `dur_ms = max(500, int(duration_sec * 1000))`.
`duration_sec` is a Python float (an exact rational); multiplying by the
exactly representable `1000` yields the binary64 rounding of the exact
product, which `int` then truncates toward zero. -/
def effDur (duration_sec : ℚ) : ℤ := max 500 (pyInt (floatOfRat (duration_sec * 1000)))

/-- Line 38 of `app.py`: `gap_ms = max(0, int(gap_ms))`. -/
def effGap (gap_ms : ℤ) : ℤ := max 0 gap_ms

/-- Line 36 of `app.py`: `curr_ms = max(0, int(start_ms))`. -/
def effStart (start_ms : ℤ) : ℤ := max 0 start_ms

/-- The `srt_lines` list built by the loop of `generate_srt`
(lines 40-47): for each chunk, the index line, the timestamp line, the
chunk text and an empty separator line, with the cursor advancing by
`dur + gap`. -/
def srtLines : List (List Char) → ℕ → ℕ → ℕ → ℕ → List (List Char)
  | [], _, _, _, _ => []
  | t :: rest, i, curr, dur, gap =>
    natRepr i :: tsLine curr (curr + dur) :: t :: [] :: srtLines rest (i + 1) (curr + dur + gap) dur gap

/-- Python `"\n".join(lines)`. -/
def joinNL : List (List Char) → List Char
  | [] => []
  | [x] => x
  | x :: y :: rest => x ++ '\n' :: joinNL (y :: rest)

/-- Embedding of `generate_srt` (lines 33-49 of `app.py`):
`"\n".join(srt_lines).strip() + "\n"` over the clamped timing parameters. -/
def generate_srt (chunks : List (List Char)) (duration_sec : ℚ) (gap_ms : ℤ) (start_ms : ℤ) :
    List Char :=
  let curr_ms := (effStart start_ms).toNat
  let dur_ms := (effDur duration_sec).toNat
  let gap := (effGap gap_ms).toNat
  pyStrip (joinNL (srtLines chunks 1 curr_ms dur_ms gap)) ++ ['\n']

/-- The time intervals assigned by the renderer's loop: starting at the
cursor, each cue gets `[curr, curr + dur]` and the cursor then advances past
the gap. -/
def cueIntervals : ℕ → ℕ → ℕ → ℕ → List (ℕ × ℕ)
  | 0, _, _, _ => []
  | n + 1, curr, dur, gap => (curr, curr + dur) :: cueIntervals n (curr + dur + gap) dur gap

/-- The `srt_lines` list expressed against an explicit interval list. -/
def srtOfPairs : List (List Char) → List (ℕ × ℕ) → ℕ → List (List Char)
  | t :: ts, (a, b) :: ps, i => natRepr i :: tsLine a b :: t :: [] :: srtOfPairs ts ps (i + 1)
  | _, _, _ => []

/-- The expected parse of the rendered document: one three-line block
(index line, timestamp line, cue text) per cue. -/
def srtParsedBlocks : List (List Char) → List (ℕ × ℕ) → ℕ → List (List (List Char))
  | t :: ts, (a, b) :: ps, i => [natRepr i, tsLine a b, t] :: srtParsedBlocks ts ps (i + 1)
  | _, _, _ => []

/-- Split a character list on `'\n'` (Python `s.split("\n")` semantics:
a trailing newline yields a trailing empty piece). -/
def splitNLAux (acc : List Char) : List Char → List (List Char)
  | [] => [acc.reverse]
  | c :: rest =>
    if c = '\n' then acc.reverse :: splitNLAux [] rest else splitNLAux (c :: acc) rest

/-- Split a document into its lines at `'\n'`. -/
def splitNL (l : List Char) : List (List Char) := splitNLAux [] l

/-- Group a list of lines into blocks separated by blank lines; blank lines
are separators and never part of a block, so no empty blocks arise. -/
def splitBlankAux (acc : List (List Char)) : List (List Char) → List (List (List Char))
  | [] => if acc.isEmpty then [] else [acc.reverse]
  | l :: rest =>
    if l.isEmpty then
      (if acc.isEmpty then splitBlankAux [] rest else acc.reverse :: splitBlankAux [] rest)
    else splitBlankAux (l :: acc) rest

/-- Re-parse an SRT document by splitting it on blank lines. -/
def parseBlocks (s : List Char) : List (List (List Char)) := splitBlankAux [] (splitNL s)

/-- The smallest nonnegative millisecond count rejected by Python's
`timedelta`: `timedelta(milliseconds=ms)` normalizes to days, seconds and
microseconds and raises `OverflowError` once the day count exceeds
999999999, i.e. for `ms ≥ 10 ^ 9 * 86400000 = 86400000000000000`. -/
def timedeltaOverflowMs : ℕ := 86400000000000000

/-- `to_timestamp` with the failure path of line 10 made explicit:
constructing `timedelta(milliseconds=ms)` raises `OverflowError` for `ms`
at or beyond `timedeltaOverflowMs` (modelled as `none`); within range the
call returns the timestamp that `to_timestamp` computes. -/
def to_timestampExc (ms : ℕ) : Option (List Char) :=
  if ms < timedeltaOverflowMs then some (to_timestamp ms) else none

/-- The renderer loop (lines 40-47) with the `OverflowError` path of
`to_timestamp` propagated: the f-string of line 44 evaluates
`to_timestamp(start)` and `to_timestamp(end)`, and an uncaught exception in
either call aborts `generate_srt` with no return value (`none`). -/
def srtLinesExc : List (List Char) → ℕ → ℕ → ℕ → ℕ → Option (List (List Char))
  | [], _, _, _, _ => some []
  | t :: rest, i, curr, dur, gap =>
    match to_timestampExc curr, to_timestampExc (curr + dur) with
    | some a, some b =>
      match srtLinesExc rest (i + 1) (curr + dur + gap) dur gap with
      | some L => some (natRepr i :: (a ++ ' ' :: '-' :: '-' :: '>' :: ' ' :: b) :: t :: [] :: L)
      | none => none
    | _, _ => none

/-- `generate_srt` with the `OverflowError` path of its `to_timestamp` calls
made explicit: `none` models the exception escaping the function, `some`
the normal return value (which `generate_srt` computes). -/
def generate_srtExc (chunks : List (List Char)) (duration_sec : ℚ) (gap_ms : ℤ)
    (start_ms : ℤ) : Option (List Char) :=
  match srtLinesExc chunks 1 (effStart start_ms).toNat (effDur duration_sec).toNat
      (effGap gap_ms).toNat with
  | some L => some (pyStrip (joinNL L) ++ ['\n'])
  | none => none

/-! ### Bridging and rounding lemmas -/

theorem ratFloor_eq (q : ℚ) : q.floor = ⌊q⌋ := (Rat.floor_def' q).trans Rat.floor_def.symm

theorem pyInt_of_nonneg (q : ℚ) (h : 0 ≤ q) : pyInt q = ⌊q⌋ := by
  unfold pyInt
  rw [if_pos h, ratFloor_eq]

theorem rne_ge (q : ℚ) : q - 1 / 2 ≤ (rne q : ℚ) := by
  unfold rne
  rw [ratFloor_eq]
  have hf1 := Int.floor_le q
  have hf2 := Int.lt_floor_add_one q
  split_ifs with h1 h2 h3 <;> push_cast <;> linarith

theorem rne_le (q : ℚ) : (rne q : ℚ) ≤ q + 1 / 2 := by
  unfold rne
  rw [ratFloor_eq]
  have hf1 := Int.floor_le q
  have hf2 := Int.lt_floor_add_one q
  split_ifs with h1 h2 h3 <;> push_cast <;> linarith

theorem rne_abs (q : ℚ) : |(rne q : ℚ) - q| ≤ 1 / 2 := by
  rw [abs_le]
  constructor
  · have := rne_ge q; linarith
  · have := rne_le q; linarith

theorem rne_intCast (n : ℤ) : rne (n : ℚ) = n := by
  unfold rne
  rw [ratFloor_eq, Int.floor_intCast]
  rw [if_pos (by norm_num)]

theorem rne_le_floor_add_one (q : ℚ) : rne q ≤ ⌊q⌋ + 1 := by
  unfold rne
  rw [ratFloor_eq]
  split_ifs <;> omega

theorem rne_ge_floor (q : ℚ) : ⌊q⌋ ≤ rne q := by
  unfold rne
  rw [ratFloor_eq]
  split_ifs <;> omega

/-! ### Binary exponent lemmas -/

theorem lg2Aux_spec (fuel : ℕ) : ∀ n, 1 ≤ n → n ≤ fuel →
    2 ^ lg2Aux fuel n ≤ n ∧ n < 2 ^ (lg2Aux fuel n + 1) := by
  induction fuel with
  | zero => intro n h1 h2; omega
  | succ fuel ih =>
    intro n h1 h2
    rw [lg2Aux]
    by_cases h : n < 2
    · rw [if_pos h]; simp; omega
    · rw [if_neg h]
      have h2' : n / 2 ≤ fuel := by omega
      have h1' : 1 ≤ n / 2 := by omega
      obtain ⟨ha, hb⟩ := ih (n / 2) h1' h2'
      set k := lg2Aux fuel (n / 2)
      constructor
      · have : 2 ^ (k + 1) = 2 ^ k * 2 := by ring
        omega
      · have e1 : 2 ^ (k + 1 + 1) = 2 ^ (k + 1) * 2 := by ring
        omega

theorem lg2_spec (n : ℕ) (h : 1 ≤ n) : 2 ^ lg2 n ≤ n ∧ n < 2 ^ (lg2 n + 1) :=
  lg2Aux_spec n n h le_rfl

theorem clg2Aux_of_le (fuel a b : ℕ) (h : b ≤ a) : clg2Aux fuel a b = 0 := by
  cases fuel <;> simp [clg2Aux, h]

theorem clg2Aux_spec (fuel : ℕ) : ∀ a b, 1 ≤ a → b ≤ a * 2 ^ fuel →
    b ≤ a * 2 ^ clg2Aux fuel a b ∧
      (a < b → 1 ≤ clg2Aux fuel a b ∧ a * 2 ^ (clg2Aux fuel a b - 1) < b) := by
  induction fuel with
  | zero =>
    intro a b h1 h2
    simp only [pow_zero, mul_one] at h2
    rw [clg2Aux_of_le 0 a b h2]
    simp only [pow_zero, mul_one]
    exact ⟨h2, fun hab => absurd hab (by omega)⟩
  | succ fuel ih =>
    intro a b h1 h2
    rw [clg2Aux]
    by_cases h : b ≤ a
    · rw [if_pos h]
      simp only [pow_zero, mul_one]
      exact ⟨h, fun hab => absurd hab (by omega)⟩
    · rw [if_neg h]
      push_neg at h
      have h2' : b ≤ 2 * a * 2 ^ fuel := by
        have e1 : a * 2 ^ (fuel + 1) = 2 * a * 2 ^ fuel := by ring
        omega
      obtain ⟨ha, hb⟩ := ih (2 * a) b (by omega) h2'
      set k := clg2Aux fuel (2 * a) b with hk
      constructor
      · have e1 : a * 2 ^ (k + 1) = 2 * a * 2 ^ k := by ring
        omega
      · intro hab
        refine ⟨by omega, ?_⟩
        by_cases hb2 : b ≤ 2 * a
        · have hk0 : k = 0 := by rw [hk]; exact clg2Aux_of_le fuel (2 * a) b hb2
          rw [hk0]
          simpa using h
        · push_neg at hb2
          obtain ⟨hk1, hk2⟩ := hb hb2
          have e1 : a * 2 ^ (k + 1 - 1) = 2 * a * 2 ^ (k - 1) := by
            have h3 : k + 1 - 1 = (k - 1) + 1 := by omega
            rw [h3, pow_succ]
            ring
          omega

theorem qfloorLog2_spec (x : ℚ) (hx : 0 < x) :
    (2 : ℚ) ^ qfloorLog2 x ≤ x ∧ x < 2 ^ (qfloorLog2 x + 1) := by
  unfold qfloorLog2
  by_cases h : 1 ≤ x
  · rw [if_pos h]
    have hfl : x.floor = ⌊x⌋ := ratFloor_eq x
    have hfl1 : (1 : ℤ) ≤ ⌊x⌋ := Int.le_floor.mpr (by exact_mod_cast h)
    have hm0 : (0 : ℤ) ≤ ⌊x⌋ := by omega
    set m := x.floor.toNat with hm
    have hmval : (m : ℤ) = ⌊x⌋ := by rw [hm, hfl, Int.toNat_of_nonneg hm0]
    have hm1 : 1 ≤ m := by omega
    obtain ⟨ha, hb⟩ := lg2_spec m hm1
    have hcast : (m : ℚ) ≤ x := by
      have : ((m : ℤ) : ℚ) ≤ x := by rw [hmval]; exact Int.floor_le x
      exact_mod_cast this
    have hcast2 : x < (m : ℚ) + 1 := by
      have : x < ((m : ℤ) : ℚ) + 1 := by rw [hmval]; exact Int.lt_floor_add_one x
      exact_mod_cast this
    constructor
    · rw [zpow_natCast]
      calc (2 : ℚ) ^ lg2 m ≤ (m : ℚ) := by exact_mod_cast ha
        _ ≤ x := hcast
    · rw [show ((lg2 m : ℤ) + 1) = ((lg2 m + 1 : ℕ) : ℤ) by push_cast; ring, zpow_natCast]
      calc x < (m : ℚ) + 1 := hcast2
        _ ≤ 2 ^ (lg2 m + 1) := by exact_mod_cast hb
  · rw [if_neg h]
    push_neg at h
    have hnum : 0 < x.num := Rat.num_pos.mpr hx
    have hdenpos : 0 < x.den := x.pos
    set a := x.num.toNat with hadef
    set b := x.den with hbdef
    have ha1 : 1 ≤ a := by omega
    have hx_eq : x = (a : ℚ) / (b : ℚ) := by
      have hc : ((a : ℤ) : ℚ) = (x.num : ℚ) := by
        rw [hadef, Int.toNat_of_nonneg hnum.le]
      rw [← Rat.num_div_den x, ← hc]
      norm_num
    have hb_pos : (0 : ℚ) < (b : ℚ) := by exact_mod_cast hdenpos
    have hab : a < b := by
      have hlt : (a : ℚ) / b < 1 := by rw [← hx_eq]; exact h
      rw [div_lt_one hb_pos] at hlt
      exact_mod_cast hlt
    have hfuel : b ≤ a * 2 ^ b := by
      calc b ≤ 2 ^ b := (Nat.lt_two_pow b).le
        _ ≤ a * 2 ^ b := Nat.le_mul_of_pos_left _ ha1
    obtain ⟨hc1, hc2⟩ := clg2Aux_spec b a b ha1 hfuel
    obtain ⟨hk1, hk2⟩ := hc2 hab
    set k := clg2Aux b a b with hkdef
    constructor
    · rw [hx_eq, zpow_neg, zpow_natCast, inv_eq_one_div,
        div_le_div_iff₀ (by positivity) hb_pos, one_mul]
      exact_mod_cast hc1
    · rw [hx_eq]
      have hexp : (-(k : ℤ) + 1) = -(((k - 1 : ℕ)) : ℤ) := by omega
      rw [hexp, zpow_neg, zpow_natCast, inv_eq_one_div,
        div_lt_div_iff₀ hb_pos (by positivity), one_mul]
      exact_mod_cast hk2


/-! ### Float rounding lemmas -/

theorem floatOfRat_err (x : ℚ) (hx : 0 < x) :
    |floatOfRat x - x| ≤ 2 ^ (qfloorLog2 x - 53) := by
  unfold floatOfRat
  rw [if_neg (not_le.mpr hx)]
  set e := qfloorLog2 x with he
  set y := x * 2 ^ (52 - e) with hy
  have h20 : (2 : ℚ) ≠ 0 := by norm_num
  have hxy : x = y * 2 ^ (e - 52) := by
    rw [hy, mul_assoc, ← zpow_add₀ h20]
    norm_num
  have habs : |(rne y : ℚ) * 2 ^ (e - 52) - x| = |(rne y : ℚ) - y| * 2 ^ (e - 52) := by
    rw [hxy, ← sub_mul, abs_mul, abs_of_pos (a := (2:ℚ) ^ (e - 52)) (by positivity)]
  rw [habs]
  calc |(rne y : ℚ) - y| * 2 ^ (e - 52) ≤ 1 / 2 * 2 ^ (e - 52) := by
        exact mul_le_mul_of_nonneg_right (rne_abs y) (by positivity)
    _ = 2 ^ (e - 53) := by
        rw [show e - 53 = (-1) + (e - 52) by ring, zpow_add₀ h20]
        norm_num

theorem floatOfRat_nat (n : ℕ) (h1 : 1 ≤ n) (h2 : n ≤ 2 ^ 52) : floatOfRat (n : ℚ) = n := by
  have hx : (0 : ℚ) < n := by exact_mod_cast h1
  obtain ⟨hs1, hs2⟩ := qfloorLog2_spec (n : ℚ) hx
  set e := qfloorLog2 (n : ℚ) with he
  have h20 : (2 : ℚ) ≠ 0 := by norm_num
  have he0 : 0 ≤ e := by
    have hn1 : (1 : ℚ) ≤ n := by exact_mod_cast h1
    have h01 : (2 : ℚ) ^ (0 : ℤ) < 2 ^ (e + 1) := by
      rw [zpow_zero]; linarith
    have := (zpow_lt_zpow_iff_right₀ (by norm_num : (1:ℚ) < 2)).mp h01
    omega
  have he52 : e ≤ 52 := by
    by_contra hcon
    push_neg at hcon
    have h53 : (53 : ℤ) ≤ e := by omega
    have : (2 : ℚ) ^ (53 : ℤ) ≤ 2 ^ e := zpow_le_zpow_right₀ (by norm_num) h53
    have hle : (2 : ℚ) ^ (53 : ℤ) ≤ (n : ℚ) := le_trans this hs1
    rw [show (53 : ℤ) = ((53 : ℕ) : ℤ) by norm_num, zpow_natCast] at hle
    have : (2 : ℕ) ^ 53 ≤ n := by exact_mod_cast hle
    have : (2 : ℕ) ^ 52 < 2 ^ 53 := by norm_num
    omega
  set s := (52 - e).toNat with hsdef
  have hscast : ((s : ℤ)) = 52 - e := by omega
  have hyint : (n : ℚ) * 2 ^ (52 - e) = ((n * 2 ^ s : ℕ) : ℚ) := by
    rw [← hscast, zpow_natCast]
    push_cast
    ring
  unfold floatOfRat
  rw [if_neg (not_le.mpr hx), ← he, hyint]
  have hrne : rne ((n * 2 ^ s : ℕ) : ℚ) = (n * 2 ^ s : ℕ) := by
    rw [show (((n * 2 ^ s : ℕ) : ℚ)) = (((n * 2 ^ s : ℕ) : ℤ) : ℚ) by push_cast; ring]
    exact_mod_cast rne_intCast ((n * 2 ^ s : ℕ) : ℤ)
  rw [hrne]
  push_cast
  rw [mul_assoc, ← zpow_natCast (2 : ℚ) s, ← zpow_add₀ h20, hscast]
  norm_num

theorem total_seconds_eq (ms : ℕ) (h : ms ≤ 2 ^ 44 * 1000) : total_seconds ms = ms / 1000 := by
  unfold total_seconds
  by_cases h0 : ms = 0
  · subst h0
    norm_num [floatOfRat, pyInt, ratFloor_eq]
  · have hms1 : 1 ≤ ms := by omega
    set x := (ms : ℚ) / 1000 with hxdef
    have hx : 0 < x := by positivity
    by_cases hdvd : 1000 ∣ ms
    · obtain ⟨n, rfl⟩ := hdvd
      have hn1 : 1 ≤ n := by omega
      have hn52 : n ≤ 2 ^ 52 := by
        have : (2 : ℕ) ^ 44 ≤ 2 ^ 52 := by norm_num
        nlinarith
      have hx_eq : x = (n : ℚ) := by
        rw [hxdef]
        push_cast
        rw [mul_comm, mul_div_assoc]
        norm_num
      rw [hx_eq, floatOfRat_nat n hn1 hn52, pyInt_of_nonneg _ (by positivity),
        Int.floor_natCast]
      simp only [Int.toNat_natCast]
      omega
    · set n := ms / 1000 with hndef
      set r := ms % 1000 with hrdef
      have hr1 : 1 ≤ r := by
        rcases Nat.eq_zero_or_pos r with h' | h'
        · exact absurd (Nat.dvd_of_mod_eq_zero h') hdvd
        · omega
      have hr999 : r ≤ 999 := by omega
      have hms_eq : ms = 1000 * n + r := by omega
      have hmslt : ms < 2 ^ 44 * 1000 := by
        rcases Nat.lt_or_ge ms (2 ^ 44 * 1000) with h' | h'
        · exact h'
        · have : ms = 2 ^ 44 * 1000 := by omega
          exact absurd (this ▸ Dvd.intro (2 ^ 44) rfl) hdvd
      have hxlt : x < 2 ^ (44 : ℤ) := by
        rw [hxdef, div_lt_iff₀ (by norm_num : (0:ℚ) < 1000)]
        rw [show ((44 : ℤ)) = ((44 : ℕ) : ℤ) by norm_num, zpow_natCast]
        exact_mod_cast hmslt
      obtain ⟨hs1, hs2⟩ := qfloorLog2_spec x hx
      have he43 : qfloorLog2 x ≤ 43 := by
        have := lt_of_le_of_lt hs1 hxlt
        have h44 := (zpow_lt_zpow_iff_right₀ (by norm_num : (1:ℚ) < 2)).mp this
        omega
      have herr := floatOfRat_err x hx
      have herr10 : |floatOfRat x - x| ≤ 2 ^ (-10 : ℤ) := by
        calc |floatOfRat x - x| ≤ 2 ^ (qfloorLog2 x - 53) := herr
          _ ≤ 2 ^ (-10 : ℤ) := zpow_le_zpow_right₀ (by norm_num) (by omega)
      have h1024 : (2 : ℚ) ^ (-10 : ℤ) = 1 / 1024 := by norm_num
      rw [h1024] at herr10
      rw [abs_le] at herr10
      have hx_eq : x = (n : ℚ) + (r : ℚ) / 1000 := by
        rw [hxdef, hms_eq]
        push_cast
        field_simp
        ring
      have hrq1 : (1 : ℚ) ≤ (r : ℚ) := by exact_mod_cast hr1
      have hrq2 : (r : ℚ) ≤ 999 := by exact_mod_cast hr999
      have hfl_lb : (n : ℚ) < floatOfRat x := by
        have : (n : ℚ) + 1 / 1000 - 1 / 1024 ≤ x - 1 / 1024 := by
          rw [hx_eq]; linarith
        linarith
      have hfl_ub : floatOfRat x < (n : ℚ) + 1 := by
        have : x + 1 / 1024 ≤ (n : ℚ) + 999 / 1000 + 1 / 1024 := by
          rw [hx_eq]; linarith
        linarith
      have hfloor : ⌊floatOfRat x⌋ = (n : ℤ) := by
        rw [Int.floor_eq_iff]
        constructor
        · push_cast; linarith
        · push_cast; linarith
      rw [pyInt_of_nonneg _ (by linarith [hfl_lb, Nat.cast_nonneg (α := ℚ) n] : (0:ℚ) ≤ floatOfRat x),
        hfloor]
      simp

/-! ### Effective-duration lemmas -/

theorem floatOfRat_nonneg (x : ℚ) : 0 ≤ floatOfRat x := by
  unfold floatOfRat
  split_ifs with h
  · exact le_rfl
  · push_neg at h
    have hy : (0 : ℚ) ≤ x * 2 ^ (52 - qfloorLog2 x) := by positivity
    have h1 : 0 ≤ ⌊x * 2 ^ (52 - qfloorLog2 x)⌋ := Int.floor_nonneg.mpr hy
    have h2 := rne_ge_floor (x * 2 ^ (52 - qfloorLog2 x))
    have h3 : (0 : ℚ) ≤ (rne (x * 2 ^ (52 - qfloorLog2 x)) : ℚ) := by exact_mod_cast le_trans h1 h2
    exact mul_nonneg h3 (by positivity)

theorem floatOfRat_le_nat (x : ℚ) (N : ℕ) (hx : 0 < x) (hxN : x < N) (hN52 : N ≤ 2 ^ 52) :
    floatOfRat x ≤ N := by
  obtain ⟨hs1, hs2⟩ := qfloorLog2_spec x hx
  set e := qfloorLog2 x with he
  have h20 : (2 : ℚ) ≠ 0 := by norm_num
  have he51 : e ≤ 51 := by
    have hxN52 : x < (2 : ℚ) ^ ((52 : ℕ) : ℤ) := by
      rw [zpow_natCast]
      calc x < N := hxN
        _ ≤ 2 ^ 52 := by exact_mod_cast hN52
    have := lt_of_le_of_lt hs1 hxN52
    have h52 := (zpow_lt_zpow_iff_right₀ (by norm_num : (1:ℚ) < 2)).mp this
    omega
  set s := (52 - e).toNat with hsdef
  have hscast : ((s : ℤ)) = 52 - e := by omega
  have hpow_eq : (2 : ℚ) ^ (52 - e) = ((2 ^ s : ℕ) : ℚ) := by
    rw [← hscast, zpow_natCast]
    push_cast
    ring
  have hy_lt : x * 2 ^ (52 - e) < ((N * 2 ^ s : ℕ) : ℚ) := by
    rw [hpow_eq]
    push_cast
    exact mul_lt_mul_of_pos_right hxN (by positivity)
  have hfl_lt : ⌊x * 2 ^ (52 - e)⌋ < ((N * 2 ^ s : ℕ) : ℤ) := by
    rw [Int.floor_lt]
    exact_mod_cast hy_lt
  have hrne_le : rne (x * 2 ^ (52 - e)) ≤ ((N * 2 ^ s : ℕ) : ℤ) := by
    have := rne_le_floor_add_one (x * 2 ^ (52 - e))
    omega
  unfold floatOfRat
  rw [if_neg (not_le.mpr hx), ← he]
  calc (rne (x * 2 ^ (52 - e)) : ℚ) * 2 ^ (e - 52)
      ≤ ((N * 2 ^ s : ℕ) : ℚ) * 2 ^ (e - 52) := by
        exact mul_le_mul_of_nonneg_right (by exact_mod_cast hrne_le) (by positivity)
    _ = N := by
        push_cast
        rw [mul_assoc, ← zpow_natCast (2 : ℚ) s, ← zpow_add₀ h20, hscast]
        norm_num

theorem effDur_of_lt_half (d : ℚ) (h : d < 1 / 2) : effDur d = 500 := by
  unfold effDur
  have h500 : pyInt (floatOfRat (d * 1000)) ≤ 500 := by
    by_cases hx : d * 1000 ≤ 0
    · rw [floatOfRat, if_pos hx, pyInt_of_nonneg 0 le_rfl]
      norm_num
    · push_neg at hx
      have hd0 : 0 < d := by nlinarith
      have hlt : d * 1000 < 500 := by nlinarith
      have hfl : floatOfRat (d * 1000) ≤ ((500 : ℕ) : ℚ) :=
        floatOfRat_le_nat (d * 1000) 500 hx (by exact_mod_cast hlt) (by norm_num)
      rw [pyInt_of_nonneg _ (floatOfRat_nonneg _)]
      calc ⌊floatOfRat (d * 1000)⌋ ≤ ⌊((500 : ℕ) : ℚ)⌋ := Int.floor_le_floor hfl
        _ = 500 := by simp
  omega

theorem effDur_half : effDur (1 / 2) = 500 := by
  unfold effDur
  have h1 : (1 / 2 : ℚ) * 1000 = ((500 : ℕ) : ℚ) := by norm_num
  rw [h1, floatOfRat_nat 500 (by norm_num) (by norm_num), pyInt_of_nonneg _ (by positivity),
    Int.floor_natCast]
  norm_num

theorem effDur_ge (d : ℚ) : 500 ≤ effDur d := le_max_left _ _

/-! ### Interval lemmas -/

theorem cueIntervals_getElem? (dur gap : ℕ) :
    ∀ n curr k, (cueIntervals n curr dur gap)[k]? =
      if k < n then some (curr + k * (dur + gap), curr + k * (dur + gap) + dur) else none := by
  intro n
  induction n with
  | zero => intro curr k; simp [cueIntervals]
  | succ n ih =>
    intro curr k
    cases k with
    | zero => simp [cueIntervals]
    | succ k =>
      rw [cueIntervals, List.getElem?_cons_succ, ih]
      have e1 : curr + dur + gap + k * (dur + gap) = curr + (k + 1) * (dur + gap) := by ring
      by_cases hk : k < n
      · rw [if_pos hk, if_pos (by omega), e1]
      · rw [if_neg hk, if_neg (by omega)]

theorem cueIntervals_length (dur gap : ℕ) :
    ∀ n curr, (cueIntervals n curr dur gap).length = n := by
  intro n
  induction n with
  | zero => intro curr; rfl
  | succ n ih => intro curr; rw [cueIntervals, List.length_cons, ih]

theorem cueIntervals_snd (dur gap : ℕ) :
    ∀ n curr p, p ∈ cueIntervals n curr dur gap → p.2 = p.1 + dur := by
  intro n
  induction n with
  | zero => intro curr p hp; simp [cueIntervals] at hp
  | succ n ih =>
    intro curr p hp
    rw [cueIntervals] at hp
    rcases List.mem_cons.mp hp with h | h
    · rw [h]
    · exact ih _ p h

theorem srtLines_eq_pairs (dur gap : ℕ) :
    ∀ (chunks : List (List Char)) i curr, srtLines chunks i curr dur gap =
      srtOfPairs chunks (cueIntervals chunks.length curr dur gap) i := by
  intro chunks
  induction chunks with
  | nil => intro i curr; rfl
  | cons t ts ih =>
    intro i curr
    rw [srtLines, List.length_cons, cueIntervals, srtOfPairs, ih]

/-! ### Stripping lemmas -/

theorem dropWhile_head_false (p : Char → Bool) :
    ∀ (l : List Char) c t, l.dropWhile p = c :: t → p c = false := by
  intro l
  induction l with
  | nil => intro c t h; simp [List.dropWhile] at h
  | cons a l ih =>
    intro c t h
    rw [List.dropWhile_cons] at h
    by_cases hp : p a
    · rw [if_pos hp] at h; exact ih c t h
    · rw [if_neg hp] at h
      injection h with h1 h2
      subst h1
      simpa using hp

theorem pyStrip_head (l : List Char) (c : Char) (t : List Char)
    (h : pyStrip l = c :: t) : pyIsSpace c = false := by
  unfold pyStrip at h
  obtain ⟨w, hw⟩ := List.dropWhile_suffix (l := (l.dropWhile pyIsSpace).reverse) pyIsSpace
  have hld : l.dropWhile pyIsSpace =
      ((l.dropWhile pyIsSpace).reverse.dropWhile pyIsSpace).reverse ++ w.reverse := by
    have h2 := congrArg List.reverse hw
    rw [List.reverse_append, List.reverse_reverse] at h2
    exact h2.symm
  rw [h] at hld
  exact dropWhile_head_false pyIsSpace l c (t ++ w.reverse) (by simpa using hld)

theorem pyStrip_getLast (l : List Char) (c : Char)
    (h : (pyStrip l).getLast? = some c) : pyIsSpace c = false := by
  unfold pyStrip at h
  rw [List.getLast?_reverse] at h
  cases hcase : (l.dropWhile pyIsSpace).reverse.dropWhile pyIsSpace with
  | nil => rw [hcase] at h; simp at h
  | cons a t =>
    rw [hcase] at h
    simp only [List.head?_cons, Option.some_inj] at h
    rw [← h]
    exact dropWhile_head_false pyIsSpace _ a t hcase

theorem pyStrip_eq_self (l : List Char)
    (h1 : ∀ c, l.head? = some c → pyIsSpace c = false)
    (h2 : ∀ c, l.getLast? = some c → pyIsSpace c = false) : pyStrip l = l := by
  cases l with
  | nil => rfl
  | cons a t =>
    have ha : pyIsSpace a = false := h1 a rfl
    unfold pyStrip
    rw [List.dropWhile_cons, if_neg (by simp [ha])]
    cases hrev : (a :: t).reverse with
    | nil => simp at hrev
    | cons b u =>
      have hb : (a :: t).getLast? = some b := by
        rw [← List.head?_reverse, hrev]; rfl
      have hbf : pyIsSpace b = false := h2 b hb
      rw [List.dropWhile_cons, if_neg (by simp [hbf]), ← hrev, List.reverse_reverse]

theorem pyStrip_idem (l : List Char) : pyStrip (pyStrip l) = pyStrip l := by
  apply pyStrip_eq_self
  · intro c hc
    cases hcase : pyStrip l with
    | nil => rw [hcase] at hc; simp at hc
    | cons a t =>
      rw [hcase] at hc
      simp only [List.head?_cons, Option.some_inj] at hc
      rw [← hc]
      exact pyStrip_head l a t hcase
  · intro c hc
    exact pyStrip_getLast l c hc

theorem pyStrip_append_newline (F : List Char) (c0 : Char) (hF : F.head? = some c0)
    (h0 : pyIsSpace c0 = false)
    (hlast : ∀ c, F.getLast? = some c → pyIsSpace c = false) :
    pyStrip (F ++ ['\n']) = F := by
  cases F with
  | nil => simp at hF
  | cons a t =>
    simp only [List.head?_cons, Option.some_inj] at hF
    have ha : pyIsSpace a = false := by rw [hF]; exact h0
    unfold pyStrip
    rw [List.cons_append, List.dropWhile_cons, if_neg (by simp [ha])]
    have hrw : ((a :: (t ++ ['\n'])) : List Char).reverse = '\n' :: (a :: t).reverse := by
      rw [← List.cons_append, List.reverse_append]
      rfl
    rw [hrw, List.dropWhile_cons, if_pos (by norm_num [pyIsSpace])]
    cases hrev : (a :: t).reverse with
    | nil => simp at hrev
    | cons b u =>
      have hb : (a :: t).getLast? = some b := by
        rw [← List.head?_reverse, hrev]; rfl
      have hbf : pyIsSpace b = false := hlast b hb
      rw [List.dropWhile_cons, if_neg (by simp [hbf]), ← hrev, List.reverse_reverse]

/-! ### Decimal-digit lemmas -/

theorem digitChar_range (n : ℕ) (h : n < 10) :
    48 ≤ (digitChar n).toNat ∧ (digitChar n).toNat ≤ 57 := by
  interval_cases n <;> decide

theorem natReprAux_range (fuel : ℕ) : ∀ n acc c, c ∈ natReprAux fuel n acc →
    c ∈ acc ∨ (48 ≤ c.toNat ∧ c.toNat ≤ 57) := by
  induction fuel with
  | zero => intro n acc c h; exact Or.inl h
  | succ fuel ih =>
    intro n acc c h
    rw [natReprAux] at h
    by_cases hn : n < 10
    · rw [if_pos hn] at h
      rcases List.mem_cons.mp h with h' | h'
      · exact Or.inr (h' ▸ digitChar_range n hn)
      · exact Or.inl h'
    · rw [if_neg hn] at h
      rcases ih (n / 10) _ c h with h' | h'
      · rcases List.mem_cons.mp h' with h'' | h''
        · exact Or.inr (h'' ▸ digitChar_range (n % 10) (Nat.mod_lt n (by norm_num)))
        · exact Or.inl h''
      · exact Or.inr h'

theorem natRepr_range (n : ℕ) (c : Char) (h : c ∈ natRepr n) :
    48 ≤ c.toNat ∧ c.toNat ≤ 57 := by
  rcases natReprAux_range (n + 1) n [] c h with h' | h'
  · simp at h'
  · exact h'

theorem natReprAux_ne_nil (fuel : ℕ) : ∀ n acc, 1 ≤ fuel ∨ acc ≠ [] →
    natReprAux fuel n acc ≠ [] := by
  induction fuel with
  | zero =>
    intro n acc h
    rcases h with h | h
    · omega
    · exact h
  | succ fuel ih =>
    intro n acc h
    rw [natReprAux]
    by_cases hn : n < 10
    · rw [if_pos hn]; exact List.cons_ne_nil _ _
    · rw [if_neg hn]
      exact ih (n / 10) _ (Or.inr (List.cons_ne_nil _ _))

theorem natRepr_ne_nil (n : ℕ) : natRepr n ≠ [] :=
  natReprAux_ne_nil (n + 1) n [] (Or.inl (by omega))

theorem digit_not_space (c : Char) (h : 48 ≤ c.toNat ∧ c.toNat ≤ 57) :
    pyIsSpace c = false := by
  unfold pyIsSpace
  have h1 : c ≠ ' ' := fun hc => by rw [hc] at h; exact absurd h (by decide)
  have h2 : c ≠ '\t' := fun hc => by rw [hc] at h; exact absurd h (by decide)
  have h3 : c ≠ '\n' := fun hc => by rw [hc] at h; exact absurd h (by decide)
  have h4 : c ≠ '\r' := fun hc => by rw [hc] at h; exact absurd h (by decide)
  have h5 : c ≠ '\x0b' := fun hc => by rw [hc] at h; exact absurd h (by decide)
  have h6 : c ≠ '\x0c' := fun hc => by rw [hc] at h; exact absurd h (by decide)
  simp [h1, h2, h3, h4, h5, h6]

theorem digit_ne_nl (c : Char) (h : 48 ≤ c.toNat ∧ c.toNat ≤ 57) : c ≠ '\n' :=
  fun hc => by rw [hc] at h; exact absurd h (by decide)

theorem nl_not_mem_natRepr (n : ℕ) : '\n' ∉ natRepr n :=
  fun h => digit_ne_nl '\n' (natRepr_range n '\n' h) rfl

theorem nl_not_mem_pad2 (n : ℕ) : '\n' ∉ pad2 n := by
  unfold pad2
  split_ifs <;>
    simp [nl_not_mem_natRepr, show ('\n' : Char) ≠ '0' by decide]

theorem nl_not_mem_pad3 (n : ℕ) : '\n' ∉ pad3 n := by
  unfold pad3
  split_ifs <;>
    simp [nl_not_mem_natRepr, show ('\n' : Char) ≠ '0' by decide]

theorem nl_not_mem_to_timestamp (ms : ℕ) : '\n' ∉ to_timestamp ms := by
  unfold to_timestamp
  simp [nl_not_mem_pad2, nl_not_mem_pad3, show ('\n' : Char) ≠ ':' by decide,
    show ('\n' : Char) ≠ ',' by decide]

theorem nl_not_mem_tsLine (a b : ℕ) : '\n' ∉ tsLine a b := by
  unfold tsLine
  simp [nl_not_mem_to_timestamp, show ('\n' : Char) ≠ ' ' by decide,
    show ('\n' : Char) ≠ '-' by decide, show ('\n' : Char) ≠ '>' by decide]

theorem tsLine_ne_nil (a b : ℕ) : tsLine a b ≠ [] := by
  simp [tsLine]

theorem natRepr_head (n : ℕ) : ∃ c t, natRepr n = c :: t ∧ pyIsSpace c = false := by
  cases hcase : natRepr n with
  | nil => exact absurd hcase (natRepr_ne_nil n)
  | cons c t =>
    refine ⟨c, t, rfl, digit_not_space c (natRepr_range n c ?_)⟩
    rw [hcase]
    exact List.mem_cons_self c t

/-! ### Join and re-parse lemmas -/

theorem joinNL_cons (x : List Char) (L : List (List Char)) (h : L ≠ []) :
    joinNL (x :: L) = x ++ '\n' :: joinNL L := by
  cases L with
  | nil => exact absurd rfl h
  | cons y r => rfl

theorem splitNLAux_no_nl (x : List Char) (hx : '\n' ∉ x) :
    ∀ acc, splitNLAux acc x = [acc.reverse ++ x] := by
  induction x with
  | nil => intro acc; simp [splitNLAux]
  | cons c rest ih =>
    intro acc
    have hc : c ≠ '\n' := fun h => hx (h ▸ List.mem_cons_self c rest)
    have hrest : '\n' ∉ rest := fun h => hx (List.mem_cons_of_mem c h)
    rw [splitNLAux, if_neg hc, ih hrest]
    simp

theorem splitNLAux_append (x : List Char) (hx : '\n' ∉ x) :
    ∀ acc rest, splitNLAux acc (x ++ '\n' :: rest) =
      (acc.reverse ++ x) :: splitNLAux [] rest := by
  induction x with
  | nil =>
    intro acc rest
    simp only [List.nil_append]
    rw [splitNLAux, if_pos rfl]
    simp
  | cons c t ih =>
    intro acc rest
    have hc : c ≠ '\n' := fun h => hx (h ▸ List.mem_cons_self c t)
    have ht : '\n' ∉ t := fun h => hx (List.mem_cons_of_mem c h)
    rw [List.cons_append, splitNLAux, if_neg hc, ih ht]
    simp

theorem splitBlankAux_block (r tsl t : List Char) (hr : r ≠ []) (hts : tsl ≠ []) (ht : t ≠ [])
    (rest : List (List Char)) :
    splitBlankAux [] (r :: tsl :: t :: [] :: rest) = [r, tsl, t] :: splitBlankAux [] rest := by
  obtain ⟨a1, r1, rfl⟩ := List.exists_cons_of_ne_nil hr
  obtain ⟨a2, r2, rfl⟩ := List.exists_cons_of_ne_nil hts
  obtain ⟨a3, r3, rfl⟩ := List.exists_cons_of_ne_nil ht
  simp [splitBlankAux]

theorem srtLines_ne_nil (t : List Char) (ts : List (List Char)) (i curr dur gap : ℕ) :
    srtLines (t :: ts) i curr dur gap ≠ [] := by
  rw [srtLines]
  exact List.cons_ne_nil _ _

theorem parse_joinNL (dur gap : ℕ) :
    ∀ (chunks : List (List Char)) i curr, (∀ c ∈ chunks, c ≠ [] ∧ '\n' ∉ c) →
      splitBlankAux [] (splitNLAux [] (joinNL (srtLines chunks i curr dur gap))) =
        srtParsedBlocks chunks (cueIntervals chunks.length curr dur gap) i := by
  intro chunks
  induction chunks with
  | nil => intro i curr h; rfl
  | cons t ts ih =>
    intro i curr h
    obtain ⟨ht_ne, ht_nl⟩ := h t (List.mem_cons_self t ts)
    have hrest : ∀ c ∈ ts, c ≠ [] ∧ '\n' ∉ c := fun c hc => h c (List.mem_cons_of_mem t hc)
    obtain ⟨rc, rt, hrc, hrns⟩ := natRepr_head i
    have hr_ne : natRepr i ≠ [] := natRepr_ne_nil i
    have hr_nl : '\n' ∉ natRepr i := nl_not_mem_natRepr i
    have hts_ne : tsLine curr (curr + dur) ≠ [] := tsLine_ne_nil _ _
    have hts_nl : '\n' ∉ tsLine curr (curr + dur) := nl_not_mem_tsLine _ _
    rw [srtLines]
    cases ts with
    | nil =>
      rw [show srtLines ([] : List (List Char)) (i + 1) (curr + dur + gap) dur gap = []
        from rfl]
      rw [show joinNL [natRepr i, tsLine curr (curr + dur), t, []] =
          natRepr i ++ '\n' :: (tsLine curr (curr + dur) ++ '\n' :: (t ++ '\n' :: [])) by
        rw [joinNL_cons _ _ (by simp), joinNL_cons _ _ (by simp), joinNL_cons _ _ (by simp)]
        rfl]
      rw [splitNLAux_append _ hr_nl, splitNLAux_append _ hts_nl, splitNLAux_append _ ht_nl]
      simp only [List.reverse_nil, List.nil_append]
      rw [show splitNLAux ([] : List Char) [] = [[]] from rfl]
      rw [splitBlankAux_block _ _ _ hr_ne hts_ne ht_ne]
      rfl
    | cons t2 ts2 =>
      rw [show joinNL (natRepr i :: tsLine curr (curr + dur) :: t :: [] ::
            srtLines (t2 :: ts2) (i + 1) (curr + dur + gap) dur gap) =
          natRepr i ++ '\n' :: (tsLine curr (curr + dur) ++ '\n' :: (t ++ '\n' :: '\n' ::
            joinNL (srtLines (t2 :: ts2) (i + 1) (curr + dur + gap) dur gap))) by
        rw [joinNL_cons _ _ (by simp), joinNL_cons _ _ (by simp), joinNL_cons _ _ (by simp),
          joinNL_cons _ _ (srtLines_ne_nil _ _ _ _ _ _)]
        rfl]
      rw [splitNLAux_append _ hr_nl, splitNLAux_append _ hts_nl,
        show (t ++ '\n' :: '\n' :: joinNL (srtLines (t2 :: ts2) (i + 1)
            (curr + dur + gap) dur gap)) =
          t ++ '\n' :: ('\n' :: joinNL (srtLines (t2 :: ts2) (i + 1)
            (curr + dur + gap) dur gap)) from rfl,
        splitNLAux_append _ ht_nl]
      rw [show splitNLAux ([] : List Char) ('\n' :: joinNL (srtLines (t2 :: ts2) (i + 1)
          (curr + dur + gap) dur gap)) =
        [] :: splitNLAux [] (joinNL (srtLines (t2 :: ts2) (i + 1) (curr + dur + gap) dur gap)) by
        rw [splitNLAux, if_pos rfl]
        rfl]
      simp only [List.reverse_nil, List.nil_append]
      rw [splitBlankAux_block _ _ _ hr_ne hts_ne ht_ne]
      rw [ih (i + 1) (curr + dur + gap) hrest]
      rfl

theorem getLast?_cons_ne (a : Char) (l : List Char) (h : l ≠ []) :
    (a :: l).getLast? = l.getLast? := by
  rw [show a :: l = [a] ++ l from rfl, List.getLast?_append_of_ne_nil [a] h]

theorem srt_body_decomp (dur gap : ℕ) :
    ∀ (ts : List (List Char)) (t : List Char) i curr,
      (∀ c ∈ (t :: ts), c ≠ [] ∧ pyStrip c = c) →
      ∃ F c0, joinNL (srtLines (t :: ts) i curr dur gap) = F ++ ['\n'] ∧
        F.head? = some c0 ∧ pyIsSpace c0 = false ∧
        (∀ c, F.getLast? = some c → pyIsSpace c = false) := by
  intro ts
  induction ts with
  | nil =>
    intro t i curr h
    obtain ⟨ht_ne, ht_strip⟩ := h t (List.mem_cons_self t [])
    obtain ⟨rc, rt, hrc, hrns⟩ := natRepr_head i
    refine ⟨natRepr i ++ '\n' :: (tsLine curr (curr + dur) ++ '\n' :: t), rc, ?_, ?_, hrns, ?_⟩
    · rw [srtLines]
      rw [show srtLines ([] : List (List Char)) (i + 1) (curr + dur + gap) dur gap = []
        from rfl]
      rw [show joinNL [natRepr i, tsLine curr (curr + dur), t, []] =
          natRepr i ++ '\n' :: (tsLine curr (curr + dur) ++ '\n' :: (t ++ '\n' :: [])) by
        rw [joinNL_cons _ _ (by simp), joinNL_cons _ _ (by simp), joinNL_cons _ _ (by simp)]
        rfl]
      simp
    · rw [hrc]; rfl
    · intro c hc
      rw [List.getLast?_append_of_ne_nil (natRepr i) (by simp),
        getLast?_cons_ne _ _ (by simp),
        List.getLast?_append_of_ne_nil (tsLine curr (curr + dur)) (by simp),
        getLast?_cons_ne _ _ ht_ne] at hc
      apply pyStrip_getLast t c
      rw [ht_strip]
      exact hc
  | cons t2 ts2 ih =>
    intro t i curr h
    obtain ⟨ht_ne, ht_strip⟩ := h t (List.mem_cons_self t (t2 :: ts2))
    have h2 : ∀ c ∈ (t2 :: ts2), c ≠ [] ∧ pyStrip c = c :=
      fun c hc => h c (List.mem_cons_of_mem t hc)
    obtain ⟨F', c0', hF', hh', hns', hl'⟩ := ih t2 (i + 1) (curr + dur + gap) h2
    obtain ⟨rc, rt, hrc, hrns⟩ := natRepr_head i
    have hF'ne : F' ≠ [] := by
      intro hcon
      rw [hcon] at hh'
      simp at hh'
    refine ⟨natRepr i ++ '\n' :: (tsLine curr (curr + dur) ++ '\n' ::
      (t ++ '\n' :: '\n' :: F')), rc, ?_, ?_, hrns, ?_⟩
    · rw [srtLines]
      rw [show joinNL (natRepr i :: tsLine curr (curr + dur) :: t :: [] ::
            srtLines (t2 :: ts2) (i + 1) (curr + dur + gap) dur gap) =
          natRepr i ++ '\n' :: (tsLine curr (curr + dur) ++ '\n' :: (t ++ '\n' :: '\n' ::
            joinNL (srtLines (t2 :: ts2) (i + 1) (curr + dur + gap) dur gap))) by
        rw [joinNL_cons _ _ (by simp), joinNL_cons _ _ (by simp), joinNL_cons _ _ (by simp),
          joinNL_cons _ _ (srtLines_ne_nil _ _ _ _ _ _)]
        rfl]
      rw [hF']
      simp
    · rw [hrc]; rfl
    · intro c hc
      rw [List.getLast?_append_of_ne_nil (natRepr i) (by simp),
        getLast?_cons_ne _ _ (by simp),
        List.getLast?_append_of_ne_nil (tsLine curr (curr + dur)) (by simp),
        getLast?_cons_ne _ _ (by simp),
        List.getLast?_append_of_ne_nil t (by simp),
        getLast?_cons_ne _ _ (by simp),
        getLast?_cons_ne _ _ hF'ne] at hc
      exact hl' c hc

theorem generate_srt_eq_joinNL (chunks : List (List Char)) (d : ℚ) (g s : ℤ)
    (hne : chunks ≠ []) (h : ∀ c ∈ chunks, c ≠ [] ∧ pyStrip c = c) :
    generate_srt chunks d g s =
      joinNL (srtLines chunks 1 (effStart s).toNat (effDur d).toNat (effGap g).toNat) := by
  cases chunks with
  | nil => exact absurd rfl hne
  | cons t ts =>
    show pyStrip (joinNL (srtLines (t :: ts) 1 (effStart s).toNat (effDur d).toNat
      (effGap g).toNat)) ++ ['\n'] = _
    obtain ⟨F, c0, hF, hh, hns, hl⟩ :=
      srt_body_decomp (effDur d).toNat (effGap g).toNat ts t 1 (effStart s).toNat h
    rw [hF, pyStrip_append_newline F c0 hh hns hl]

theorem srtParsedBlocks_length :
    ∀ (chunks : List (List Char)) (ps : List (ℕ × ℕ)) i, ps.length = chunks.length →
      (srtParsedBlocks chunks ps i).length = chunks.length := by
  intro chunks
  induction chunks with
  | nil => intro ps i h; cases ps <;> rfl
  | cons t ts ih =>
    intro ps i h
    cases ps with
    | nil => simp at h
    | cons p ps' =>
      obtain ⟨a, b⟩ := p
      rw [srtParsedBlocks, List.length_cons, List.length_cons, ih ps' (i + 1) (by simpa using h)]

/-! ### Overflow-path lemmas -/

theorem srtLinesExc_of_bound (dur gap : ℕ) :
    ∀ (chunks : List (List Char)) i curr,
      curr + chunks.length * (dur + gap) < timedeltaOverflowMs →
      srtLinesExc chunks i curr dur gap = some (srtLines chunks i curr dur gap) := by
  intro chunks
  induction chunks with
  | nil => intro i curr h; rfl
  | cons t ts ih =>
    intro i curr h
    rw [List.length_cons] at h
    set P := (ts.length + 1) * (dur + gap) with hP
    set Q := ts.length * (dur + gap) with hQ
    have e1 : P = dur + gap + Q := by rw [hP, hQ]; ring
    have hc : curr < timedeltaOverflowMs := by omega
    have hcd : curr + dur < timedeltaOverflowMs := by omega
    have hrec : curr + dur + gap + Q < timedeltaOverflowMs := by omega
    rw [srtLinesExc,
      show to_timestampExc curr = some (to_timestamp curr) from if_pos hc,
      show to_timestampExc (curr + dur) = some (to_timestamp (curr + dur)) from if_pos hcd,
      ih (i + 1) (curr + dur + gap) hrec]
    rfl

theorem srtLinesExc_none_or (dur gap : ℕ) :
    ∀ (chunks : List (List Char)) i curr,
      srtLinesExc chunks i curr dur gap = none ∨
        srtLinesExc chunks i curr dur gap = some (srtLines chunks i curr dur gap) := by
  intro chunks
  induction chunks with
  | nil => intro i curr; right; rfl
  | cons t ts ih =>
    intro i curr
    by_cases h1 : curr < timedeltaOverflowMs
    · by_cases h2 : curr + dur < timedeltaOverflowMs
      · rw [srtLinesExc,
          show to_timestampExc curr = some (to_timestamp curr) from if_pos h1,
          show to_timestampExc (curr + dur) = some (to_timestamp (curr + dur)) from if_pos h2]
        rcases ih (i + 1) (curr + dur + gap) with hn | hs
        · left; rw [hn]
        · right; rw [hs]; exact rfl
      · left
        rw [srtLinesExc,
          show to_timestampExc (curr + dur) = none from if_neg h2]
        cases to_timestampExc curr <;> rfl
    · left
      rw [srtLinesExc, show to_timestampExc curr = none from if_neg h1]

/-! ### Claim theorems -/

/-- Claim C1 (amended): `generate_srt` computes the effective cue duration as
`max(500, int(duration_sec * 1000))`, where `int` truncates toward zero (the
source does not round to nearest), and uses that value as the length of every
cue's time interval. -/
theorem render_effective_duration_amended (chunks : List (List Char)) (d : ℚ) (g s : ℤ) :
    generate_srt chunks d g s =
      pyStrip (joinNL (srtOfPairs chunks (cueIntervals chunks.length (effStart s).toNat
        (max 500 (pyInt (floatOfRat (d * 1000)))).toNat (effGap g).toNat) 1)) ++ ['\n'] ∧
    ∀ p ∈ cueIntervals chunks.length (effStart s).toNat
        (max 500 (pyInt (floatOfRat (d * 1000)))).toNat (effGap g).toNat,
      p.2 = p.1 + (max 500 (pyInt (floatOfRat (d * 1000)))).toNat := by
  constructor
  · show pyStrip (joinNL (srtLines chunks 1 (effStart s).toNat
      (max 500 (pyInt (floatOfRat (d * 1000)))).toNat (effGap g).toNat)) ++ ['\n'] = _
    rw [srtLines_eq_pairs]
  · intro p hp
    exact cueIntervals_snd _ _ chunks.length _ p hp

/-- Claim C2: in the rendered timeline each interval ends exactly
`dur` after it starts, the next interval starts exactly `gap` after the
previous end, starts strictly increase, and intervals never overlap;
the rendered lines are exactly those of this interval list. -/
theorem render_interval_invariants (chunks : List (List Char)) (d : ℚ) (g s : ℤ)
    (_hne : chunks ≠ []) :
    srtLines chunks 1 (effStart s).toNat (effDur d).toNat (effGap g).toNat =
      srtOfPairs chunks (cueIntervals chunks.length (effStart s).toNat (effDur d).toNat
        (effGap g).toNat) 1 ∧
    (∀ (k a b : ℕ), (cueIntervals chunks.length (effStart s).toNat (effDur d).toNat
        (effGap g).toNat)[k]? = some (a, b) → b = a + (effDur d).toNat) ∧
    (∀ (k a b a' b' : ℕ), (cueIntervals chunks.length (effStart s).toNat (effDur d).toNat
        (effGap g).toNat)[k]? = some (a, b) →
      (cueIntervals chunks.length (effStart s).toNat (effDur d).toNat
        (effGap g).toNat)[k + 1]? = some (a', b') →
      a' = b + (effGap g).toNat ∧ a < a' ∧ b ≤ a') := by
  refine ⟨srtLines_eq_pairs _ _ chunks 1 _, ?_, ?_⟩
  · intro k a b hk
    rw [cueIntervals_getElem?] at hk
    by_cases h1 : k < chunks.length
    · rw [if_pos h1] at hk
      simp only [Option.some_inj, Prod.mk.injEq] at hk
      omega
    · rw [if_neg h1] at hk
      exact absurd hk (by simp)
  · intro k a b a' b' hk hk1
    have hdur : (500 : ℤ) ≤ effDur d := effDur_ge d
    have hdurN : 500 ≤ (effDur d).toNat := by omega
    rw [cueIntervals_getElem?] at hk hk1
    by_cases h1 : k < chunks.length
    · rw [if_pos h1] at hk
      by_cases h2 : k + 1 < chunks.length
      · rw [if_pos h2] at hk1
        simp only [Option.some_inj, Prod.mk.injEq] at hk hk1
        have e1 : (k + 1) * ((effDur d).toNat + (effGap g).toNat) =
            k * ((effDur d).toNat + (effGap g).toNat) +
              ((effDur d).toNat + (effGap g).toNat) := by ring
        omega
      · rw [if_neg h2] at hk1
        exact absurd hk1 (by simp)
    · rw [if_neg h1] at hk
      exact absurd hk (by simp)

/-- Claim C3 (amended): if the *cleaned* text (stripped, with space/tab runs
collapsed) contains at least two newline characters, then auto mode produces
exactly the newlines-mode segmentation. -/
theorem segment_auto_eq_newlines_amended (text : List Char)
    (h : 2 ≤ (collapseST (pyStrip text)).count '\n') :
    split_text text "auto" = split_text text "newlines" := by
  have hmem : '\n' ∈ collapseST (pyStrip text) := List.count_pos_iff.mp (by omega)
  unfold split_text
  rw [if_pos (Or.inr ⟨rfl, hmem, h⟩), if_pos (Or.inl rfl)]

/-- Claim C4: for cue lists of non-empty, stripped, newline-free strings,
splitting the rendered document on blank lines yields exactly one block per
cue, and the i-th block is the index line for i, the timestamp line of the
i-th interval, and the i-th cue text unchanged. -/
theorem render_reparse_blocks (chunks : List (List Char)) (d : ℚ) (g s : ℤ)
    (h : ∀ c ∈ chunks, c ≠ [] ∧ pyStrip c = c ∧ '\n' ∉ c) :
    parseBlocks (generate_srt chunks d g s) =
      srtParsedBlocks chunks (cueIntervals chunks.length (effStart s).toNat
        (effDur d).toNat (effGap g).toNat) 1 ∧
    (parseBlocks (generate_srt chunks d g s)).length = chunks.length := by
  have hmain : parseBlocks (generate_srt chunks d g s) =
      srtParsedBlocks chunks (cueIntervals chunks.length (effStart s).toNat
        (effDur d).toNat (effGap g).toNat) 1 := by
    cases chunks with
    | nil => rfl
    | cons t ts =>
      rw [generate_srt_eq_joinNL (t :: ts) d g s (by simp)
        (fun c hc => ⟨(h c hc).1, (h c hc).2.1⟩)]
      unfold parseBlocks splitNL
      exact parse_joinNL _ _ (t :: ts) 1 _ (fun c hc => ⟨(h c hc).1, (h c hc).2.2⟩)
  refine ⟨hmain, ?_⟩
  rw [hmain]
  exact srtParsedBlocks_length chunks _ 1 (by rw [cueIntervals_length])

/-- Claim C5 (amended): for every `ms ≤ 2 ^ 44 * 1000` (about 557 thousand
years) the timestamp is `HH:MM:SS,mmm` with hours `ms / 3600000`, minutes
`ms / 60000 % 60`, seconds `ms / 1000 % 60` and milliseconds `ms % 1000`,
each zero-padded as claimed.  Beyond that bound the float conversion inside
`to_timestamp` can round the seconds count up (see the counterexample). -/
theorem to_timestamp_formula_amended (ms : ℕ) (h : ms ≤ 2 ^ 44 * 1000) :
    to_timestamp ms = pad2 (ms / 3600000) ++ ':' :: pad2 (ms / 60000 % 60) ++
      ':' :: pad2 (ms / 1000 % 60) ++ ',' :: pad3 (ms % 1000) := by
  show pad2 (total_seconds ms / 3600) ++ ':' :: pad2 (total_seconds ms % 3600 / 60) ++
    ':' :: pad2 (total_seconds ms % 60) ++ ',' :: pad3 (ms % 1000) = _
  rw [total_seconds_eq ms h]
  have h1 : ms / 1000 / 3600 = ms / 3600000 := by omega
  have h2 : ms / 1000 % 3600 / 60 = ms / 60000 % 60 := by omega
  have h3 : ms / 1000 % 60 = ms / 1000 % 60 := rfl
  rw [h1, h2]

/-- Claim C6: every string returned by `split_text`, in any mode, is
non-empty and has no leading or trailing whitespace (stripping it is the
identity). -/
theorem segment_pieces_nonempty_stripped (text : List Char) (mode : String)
    (p : List Char) (h : p ∈ split_text text mode) : p ≠ [] ∧ pyStrip p = p := by
  have main : ∀ X : List (List Char),
      p ∈ (X.map pyStrip).filter (fun q => !q.isEmpty) → p ≠ [] ∧ pyStrip p = p := by
    intro X hX
    rw [List.mem_filter] at hX
    obtain ⟨hmem, hne⟩ := hX
    rw [List.mem_map] at hmem
    obtain ⟨q, hq, rfl⟩ := hmem
    refine ⟨?_, pyStrip_idem q⟩
    intro hcon
    rw [hcon] at hne
    simp at hne
  unfold split_text at h
  split_ifs at h
  · exact main _ h
  · exact main _ h

/-- Claim C7 (amended): `generate_srt` clamps the effective gap to
`max(0, gapMs)` and the effective start to `max(0, startMs)` — in particular
negative values never raise and give the same result as the clamped values —
and whenever every computed timestamp stays below `timedelta`'s limit (in
particular whenever `start + len(cues) * (dur + gap)` does) it returns,
without raising, a well-formed document ending in a newline.  It is *not*
total: a computed timestamp at or beyond `timedeltaOverflowMs` makes
`to_timestamp` raise `OverflowError` (see the counterexample); when the
function does return, its value is the one computed by `generate_srt`. -/
theorem render_clamps_gap_start_amended (chunks : List (List Char)) (d : ℚ) (g s : ℤ) :
    generate_srtExc chunks d g s = generate_srtExc chunks d (max 0 g) (max 0 s) ∧
    (generate_srtExc chunks d g s = none ∨
      generate_srtExc chunks d g s = some (generate_srt chunks d g s)) ∧
    ((effStart s).toNat + chunks.length * ((effDur d).toNat + (effGap g).toNat) <
        timedeltaOverflowMs →
      generate_srtExc chunks d g s = some (generate_srt chunks d g s) ∧
      ∃ F, generate_srt chunks d g s = F ++ ['\n']) := by
  refine ⟨?_, ?_, ?_⟩
  · have h1 : effGap (max 0 g) = effGap g := by unfold effGap; omega
    have h2 : effStart (max 0 s) = effStart s := by unfold effStart; omega
    unfold generate_srtExc
    rw [h1, h2]
  · rcases srtLinesExc_none_or (effDur d).toNat (effGap g).toNat chunks 1
        (effStart s).toNat with hn | hs
    · left
      unfold generate_srtExc
      rw [hn]
    · right
      unfold generate_srtExc
      rw [hs]
      exact rfl
  · intro hbound
    have hsome := srtLinesExc_of_bound (effDur d).toNat (effGap g).toNat chunks 1
      (effStart s).toNat hbound
    constructor
    · unfold generate_srtExc
      rw [hsome]
      exact rfl
    · exact ⟨_, rfl⟩

/-- Claim C8: rendering with any duration strictly below half a second gives
exactly the same document as rendering with duration one half. -/
theorem render_duration_floor_half (chunks : List (List Char)) (g s : ℤ) (d : ℚ)
    (h : d < 1 / 2) : generate_srt chunks d g s = generate_srt chunks (1 / 2) g s := by
  unfold generate_srt
  rw [effDur_of_lt_half d h, effDur_half]

/-- Claim C9: rendering an empty cue sequence yields exactly the one-character
string consisting of a single newline, for all timing parameters. -/
theorem render_empty_cues (d : ℚ) (g s : ℤ) : generate_srt [] d g s = ['\n'] := rfl

/-- Claim C10: any mode string other than "newlines" and "auto" (including
the empty string and misspellings) is never validated and behaves exactly as
mode "sentences". -/
theorem segment_unknown_mode_sentences (text : List Char) (mode : String)
    (h1 : mode ≠ "newlines") (h2 : mode ≠ "auto") :
    split_text text mode = split_text text "sentences" := by
  unfold split_text
  rw [if_neg (by rintro (h | ⟨h, -⟩); exacts [h1 h, h2 h]),
    if_neg (by rintro (h | ⟨h, -⟩) <;> exact absurd h (by decide))]

/-! ### Witnesses and counterexamples -/

unseal Rat.mul Rat.add Rat.sub Rat.inv in
/-- Claim C1 counterexample: with duration 2.84375 s (exactly representable
in binary64) the code truncates `2843.75` to `2843`, while the claimed
rounding gives `2844`; the rendered end timestamp is `00:00:02,843`, not the
`00:00:02,844` the claim implies. -/
theorem render_truncates_not_rounds_cex :
    generate_srt [['a']] (91 / 32) 0 0 =
        ("1\n00:00:00,000 --> 00:00:02,843\na\n").data ∧
      (2844 : ℤ) = max 500 (round ((91 / 32 : ℚ) * 1000)) ∧
      generate_srt [['a']] (91 / 32) 0 0 ≠
        ("1\n00:00:00,000 --> 00:00:02,844\na\n").data := by
  refine ⟨by decide, ?_, by decide⟩
  rw [round_eq, ← ratFloor_eq]
  decide

unseal Rat.mul Rat.add Rat.sub Rat.inv in
/-- Claim C1 witness: at duration 1 s the effective duration is 1000 ms and
the single interval is `(0, 1000)`. -/
theorem render_effective_duration_amended_witness :
    ((0, 1000) : ℕ × ℕ) ∈ cueIntervals [['a']].length (effStart 0).toNat
        (max 500 (pyInt (floatOfRat ((1 : ℚ) * 1000)))).toNat (effGap 0).toNat ∧
      ((0, 1000) : ℕ × ℕ).2 = ((0, 1000) : ℕ × ℕ).1 +
        (max 500 (pyInt (floatOfRat ((1 : ℚ) * 1000)))).toNat :=
  ⟨by decide, (render_effective_duration_amended [['a']] 1 0 0).2 (0, 1000) (by decide)⟩

/-- Claim C2 witness: the invariants instantiated at a single one-character
cue with duration 1 s, gap 0, start 0. -/
theorem render_interval_invariants_witness :
    (srtLines [['a']] 1 (effStart 0).toNat (effDur 1).toNat (effGap 0).toNat =
      srtOfPairs [['a']] (cueIntervals [['a']].length (effStart 0).toNat (effDur 1).toNat
        (effGap 0).toNat) 1 ∧
    (∀ (k a b : ℕ), (cueIntervals [['a']].length (effStart 0).toNat (effDur 1).toNat
        (effGap 0).toNat)[k]? = some (a, b) → b = a + (effDur 1).toNat) ∧
    (∀ (k a b a' b' : ℕ), (cueIntervals [['a']].length (effStart 0).toNat (effDur 1).toNat
        (effGap 0).toNat)[k]? = some (a, b) →
      (cueIntervals [['a']].length (effStart 0).toNat (effDur 1).toNat
        (effGap 0).toNat)[k + 1]? = some (a', b') →
      a' = b + (effGap 0).toNat ∧ a < a' ∧ b ≤ a')) :=
  render_interval_invariants [['a']] 1 0 0 (by decide)

/-- Claim C3 counterexample: the raw input `"a. b\nc\n"` contains two
line-break characters, yet auto mode and newlines mode disagree, because the
auto check counts newlines only in the stripped text. -/
theorem segment_auto_newlines_cex :
    2 ≤ (['a', '.', ' ', 'b', '\n', 'c', '\n'] : List Char).count '\n' ∧
      split_text ['a', '.', ' ', 'b', '\n', 'c', '\n'] "auto" ≠
        split_text ['a', '.', ' ', 'b', '\n', 'c', '\n'] "newlines" := by
  decide

/-- Claim C3 witness: a text whose cleaned form keeps two newlines. -/
theorem segment_auto_eq_newlines_amended_witness :
    2 ≤ (collapseST (pyStrip ['a', '\n', 'b', '\n', 'c'])).count '\n' ∧
      split_text ['a', '\n', 'b', '\n', 'c'] "auto" =
        split_text ['a', '\n', 'b', '\n', 'c'] "newlines" :=
  ⟨by decide, segment_auto_eq_newlines_amended ['a', '\n', 'b', '\n', 'c'] (by decide)⟩

unseal Rat.mul Rat.add Rat.sub Rat.inv in
/-- Claim C4 witness: re-parsing the document rendered for the single cue
"a" with duration 1 s, gap 2 ms, start 3 ms. -/
theorem render_reparse_blocks_witness :
    parseBlocks (generate_srt [['a']] 1 2 3) =
      srtParsedBlocks [['a']] (cueIntervals [['a']].length (effStart 3).toNat
        (effDur 1).toNat (effGap 2).toNat) 1 ∧
    (parseBlocks (generate_srt [['a']] 1 2 3)).length = [['a']].length :=
  render_reparse_blocks [['a']] 1 2 3 (by decide)

unseal Rat.mul Rat.add Rat.sub Rat.inv in
/-- Claim C5 counterexample: at `ms = 2 ^ 45 * 1000 - 1` the binary64 value
of `ms / 1000` rounds up to `2 ^ 45`, so the code renders the seconds field
as 32 where the claim's integer formula yields 31. -/
theorem to_timestamp_formula_cex :
    to_timestamp 35184372088831999 ≠
      pad2 (35184372088831999 / 3600000) ++ ':' :: pad2 (35184372088831999 / 60000 % 60) ++
        ':' :: pad2 (35184372088831999 / 1000 % 60) ++ ',' :: pad3 (35184372088831999 % 1000) := by
  decide

/-- Claim C5 witness: the claim's own example, 3725007 ms renders as
`01:02:05,007`. -/
theorem to_timestamp_formula_amended_witness :
    3725007 ≤ 2 ^ 44 * 1000 ∧ to_timestamp 3725007 = ("01:02:05,007").data :=
  ⟨by norm_num, (to_timestamp_formula_amended 3725007 (by norm_num)).trans (by decide)⟩

/-- Claim C6 witness: segmenting "ab" in auto mode yields the piece "ab",
which is non-empty and stripped. -/
theorem segment_pieces_nonempty_stripped_witness :
    ['a', 'b'] ∈ split_text ['a', 'b'] "auto" ∧
      ((['a', 'b'] : List Char) ≠ [] ∧ pyStrip ['a', 'b'] = ['a', 'b']) :=
  ⟨by decide, segment_pieces_nonempty_stripped ['a', 'b'] "auto" ['a', 'b'] (by decide)⟩

/-- Claim C8 witness: duration 0 s renders identically to 0.5 s. -/
theorem render_duration_floor_half_witness :
    ((0 : ℚ) < 1 / 2) ∧ generate_srt [['a']] 0 0 0 = generate_srt [['a']] (1 / 2) 0 0 :=
  ⟨by norm_num, render_duration_floor_half [['a']] 0 0 0 (by norm_num)⟩

unseal Rat.mul Rat.add Rat.sub Rat.inv in
/-- Claim C7 counterexample: at start 10^17 ms (an out-of-range but valid
Python integer) the very first timestamp is past `timedelta`'s limit, so
`to_timestamp` raises `OverflowError` and `generate_srt` fails instead of
producing a document. -/
theorem render_overflow_cex :
    generate_srtExc [['a']] (5 / 2) 200 100000000000000000 = none ∧
      to_timestampExc (effStart 100000000000000000).toNat = none := by
  decide

unseal Rat.mul Rat.add Rat.sub Rat.inv in
/-- Claim C7 witness: a one-cue render with duration 1 s, gap 0, start 0
stays below the overflow bound, succeeds, and ends in a newline. -/
theorem render_clamps_gap_start_amended_witness :
    ((effStart 0).toNat + [['a']].length * ((effDur 1).toNat + (effGap 0).toNat) <
        timedeltaOverflowMs) ∧
      (generate_srtExc [['a']] 1 0 0 = some (generate_srt [['a']] 1 0 0) ∧
        ∃ F, generate_srt [['a']] 1 0 0 = F ++ ['\n']) :=
  ⟨by decide, (render_clamps_gap_start_amended [['a']] 1 0 0).2.2 (by decide)⟩

/-- Claim C10 witness: the unrecognized mode "bogus" behaves as "sentences". -/
theorem segment_unknown_mode_sentences_witness :
    ("bogus" : String) ≠ "newlines" ∧ ("bogus" : String) ≠ "auto" ∧
      split_text ['h', 'i'] "bogus" = split_text ['h', 'i'] "sentences" :=
  ⟨by decide, by decide,
    segment_unknown_mode_sentences ['h', 'i'] "bogus" (by decide) (by decide)⟩
